import Mathlib

/-!
Verification of the LAC ("Lazy API Coder") type-inference and unification
engine, shallowly embedded from the Go sources (`main.go`, `plainjson.go`,
and the unnamed evolutionary snapshots).  Go maps are modelled as
association lists (a list entry order stands for one map iteration order),
`reflect.Type` is modelled by the name that `Type.Name()` returns
(`none` stands for a nil `reflect.Type`), and character-level operations
are modelled for ASCII input, where Go's byte indexing coincides with
character indexing.
-/

namespace LAC

/-- Go map read `m[k]`: the value of the first entry with key `k`. -/
def lookupL {α : Type} : List (String × α) → String → Option α
  | [], _ => none
  | (ka, v) :: rest, k => if ka = k then some v else lookupL rest k

/-- Go map write `m[k] = v`: replace the value of the first entry with key
`k`, or append a new entry. -/
def insertL {α : Type} (k : String) (v : α) : List (String × α) → List (String × α)
  | [] => [(k, v)]
  | (ka, va) :: rest => if ka = k then (k, v) :: rest else (ka, va) :: insertL k v rest

/-- `strings.Split` on a one-character separator, on rune lists. -/
def splitOnChar (sep : Char) : List Char → List (List Char)
  | [] => [[]]
  | c :: cs =>
    match splitOnChar sep cs with
    | [] => [[]]
    | s :: ss => if c = sep then [] :: s :: ss else (c :: s) :: ss

/-- `parts[len(parts)-1]` of `strings.Split(k, ".")` in `typeExists`. -/
def lastSegment (s : String) : String :=
  String.mk ((splitOnChar '.' s.data).getLastD [])

/-- `parts[0]` of `strings.Split(fileName, ".")` in `typesFromMap`. -/
def firstDotSegment (s : String) : String :=
  String.mk ((splitOnChar '.' s.data).headD [])

/-- `filepath.Base` for the plain relative paths the tool is fed: the part
after the last `/` (Go's extra handling of empty paths and trailing
slashes is irrelevant for such inputs). -/
def filepathBase (p : String) : String :=
  String.mk ((splitOnChar '/' p.data).getLastD [])

/-- The `maybeType` struct (snapshot with all fields; `main.go`'s copy has
a subset and leaves the extra fields at their zero values).  `typeOf`
models the `reflect.Type` by the string `Type.Name()` returns; `none`
models a nil `reflect.Type`. -/
structure MaybeType where
  isArray : Bool := false
  typeOf : Option String := none
  nameOftype : String := ""
  originalFileName : String := ""
  multiType : List String := []
  description : String := ""
deriving DecidableEq, Repr

/-- `maybeType.Equals`: if both reflected types are non-nil compare their
names; otherwise if both `nameOftype` are non-empty compare them;
otherwise false.  (Identical in every snapshot.) -/
def MaybeType.Equals (m mt : MaybeType) : Bool :=
  match m.typeOf, mt.typeOf with
  | some a, some b => a = b
  | _, _ =>
    if m.nameOftype ≠ "" ∧ mt.nameOftype ≠ "" then m.nameOftype = mt.nameOftype
    else false

/-- The slice of `config` consumed by the embedded core (the remaining
fields only drive I/O and rendering, which are out of scope). -/
structure Config where
  targetPackage : String := "main"
  fileTypeMap : List (String × String) := []

/-- The first half of `normalizeNames`: lower-case every upper-case rune,
prepending `_` except at index 0.  (`unicode.IsUpper`/`ToLower` restricted
to ASCII.) -/
def normalizeRunes : List Char → Bool → List Char
  | [], _ => []
  | c :: cs, isFirst =>
    if c.isUpper then
      (if isFirst then [c.toLower] else ['_', c.toLower]) ++ normalizeRunes cs false
    else c :: normalizeRunes cs false

/-- The case/separator-insensitive canonical form a raw name is rewritten
to before the stutter-prefix check of `normalizeNames`. -/
def canonicalForm (name : String) : String :=
  String.mk (normalizeRunes name.data true)

/-- `strings.ToLower`, restricted to ASCII. -/
def lowerChars (l : List Char) : List Char := l.map Char.toLower

/-- `normalizeNames(name, pkgName)`: canonicalize, then strip a stuttering
package prefix when the lower-cased raw name starts with the lower-cased
package name and their lengths differ. -/
def normalizeNames (name pkgName : String) : String :=
  let normalized := canonicalForm name
  if (lowerChars pkgName.data).isPrefixOf (lowerChars name.data)
      ∧ name.data.length ≠ pkgName.data.length then
    String.mk (normalized.data.drop pkgName.data.length)
  else normalized

/-- The first lines of `typeExists`: apply the `--structnames` rename
override, then normalize. -/
def canonicalKeyOf (c : Config) (name : String) : String :=
  let foundName :=
    match lookupL c.fileTypeMap name with
    | some newName => newName
    | none => name
  normalizeNames foundName c.targetPackage

/-- A shape: field name to inferred type descriptor, one structural level. -/
abbrev Shape := List (String × MaybeType)

/-- The type registry: canonical name to shape. -/
abbrev TypeMap := List (String × Shape)

/-- First conflict loop of `typeExists`: some field of `existing` is also
in `ours` with an inequivalent descriptor. -/
def conflictExisting (existing ours : Shape) : Bool :=
  existing.any fun kv =>
    match lookupL ours kv.1 with
    | some vo => !(kv.2.Equals vo)
    | none => false

/-- Second conflict loop of `typeExists`: some field of `ours` is also in
`existing` with an inequivalent descriptor. -/
def conflictOurs (ours existing : Shape) : Bool :=
  ours.any fun kv =>
    match lookupL existing kv.1 with
    | some vo => !(kv.2.Equals vo)
    | none => false

/-- The `missing` map of `typeExists`: fields of `ours` absent from
`existing`. -/
def missingFields (ours existing : Shape) : Shape :=
  ours.filter fun kv => (lookupL existing kv.1).isNone

/-- `typeExists` after a registry match was found (`existing`), with
`foundName` the matched key: fork on any field conflict, merge (widen)
otherwise. -/
def typeExistsMatch (foundName parent : String) (ours existing : Shape)
    (typeMap : TypeMap) : (String × Bool) × TypeMap :=
  if conflictExisting existing ours then
    let newName := parent ++ "." ++ foundName
    ((newName, false), insertL newName ours typeMap)
  else if conflictOurs ours existing then
    let newName := parent ++ "." ++ foundName
    ((newName, false), insertL newName ours typeMap)
  else
    let merged := existing ++ missingFields ours existing
    ((foundName, true), insertL foundName merged typeMap)

/-- The fallback search of `typeExists` when the direct lookup misses: the
first registry key whose last dot-qualification segment equals the wanted
name. -/
def findParented (typeMap : TypeMap) (foundName : String) : Option (String × Shape) :=
  typeMap.find? fun kv => lastSegment kv.1 = foundName

/-- `typeExists(name, parent, c, ours, typeMap)`: resolve-or-register.
Returns the canonical name the shape ended under, the `bool` the Go
function returns, and the updated registry.  (Identical in `main.go`,
`plainjson.go` and the snapshot.) -/
def typeExists (name parent : String) (c : Config) (ours : Shape)
    (typeMap : TypeMap) : (String × Bool) × TypeMap :=
  let foundName := canonicalKeyOf c name
  match lookupL typeMap foundName with
  | some existing => typeExistsMatch foundName parent ours existing typeMap
  | none =>
    match findParented typeMap foundName with
    | some kv => typeExistsMatch kv.1 parent ours kv.2 typeMap
    | none => ((foundName, false), insertL foundName ours typeMap)

/-- A decoded JSON value as Go's `encoding/json` produces it into an
`interface{}`: objects become `map[string]interface{}` (modelled with an
entry order standing for one iteration order), arrays `[]interface{}`,
strings `string`, numbers always `float64` (hence `num` carries no
payload: the numeric value never influences typing), booleans `bool`,
nulls nil. -/
inductive JValue where
  | str (s : String)
  | num
  | boolean (b : Bool)
  | null
  | arr (elems : List JValue)
  | obj (fields : List (String × JValue))

/-- `reflect.TypeOf` on a decoded value, modelled by `Type.Name()`:
`none` is the nil `reflect.Type` of an untyped nil; composite unnamed
types (`[]interface{}`, `map[string]interface{}`) have an empty name. -/
def reflectTypeOf : JValue → Option String
  | .str _ => some "string"
  | .num => some "float64"
  | .boolean _ => some "bool"
  | .null => none
  | .arr _ => some ""
  | .obj _ => some ""

mutual

/-- `unWrapMap` (`main.go`): decompose one object level, registering every
nested object (or array-of-object) under its field name via `typeExists`.
The Go `case map[string][]interface{}` branch is unrepresentable here: the
decoder never produces that dynamic type.  The `error` channel mirrors the
Go signature; no branch of the source creates an error. -/
def unWrapMap (c : Config) (m : List (String × JValue)) (name : String)
    (typeMap : TypeMap) : Except String (Shape × TypeMap) :=
  match m with
  | [] => .ok ([], typeMap)
  | (fn, f) :: rest =>
    match unwrapField c name fn f typeMap with
    | .error e => .error e
    | .ok (it, tm1) =>
      match unWrapMap c rest name tm1 with
      | .error e => .error e
      | .ok (s, tm2) => .ok ((fn, it) :: s, tm2)

/-- The body of `unWrapMap`'s field loop: one field's value to its
descriptor, threading the registry. -/
def unwrapField (c : Config) (name fn : String) (f : JValue) (typeMap : TypeMap) :
    Except String (MaybeType × TypeMap) :=
  match f with
  | .obj inner =>
    match unWrapMap c inner fn typeMap with
    | .error e => .error e
    | .ok (uit, tm1) =>
      let r := typeExists fn name c uit tm1
      .ok ({ nameOftype := r.1.1 }, r.2)
  | .arr [] => .ok ({ isArray := true, nameOftype := "interface\x7b\x7d" }, typeMap)
  | .arr (first :: _) =>
    match first with
    | .obj inner =>
      match unWrapMap c inner fn typeMap with
      | .error e => .error e
      | .ok (uit, tm1) =>
        let r := typeExists fn name c uit tm1
        .ok ({ isArray := true, nameOftype := r.1.1 }, r.2)
    | other => .ok ({ isArray := true, typeOf := reflectTypeOf other }, typeMap)
  | _ => .ok ({ typeOf := reflectTypeOf f }, typeMap)

end

/-- The inner loop of `typesFromMap` (`main.go`) over the decoded documents
of one source file: each top-level object is decomposed (with the file
name as scope) and unified under the file name's first dot-segment. -/
def processDocs (c : Config) (tn : String) : List JValue → TypeMap → Except String TypeMap
  | [], tm => .ok tm
  | tf :: rest, tm =>
    match tf with
    | .obj fields =>
      let fileName := filepathBase tn
      match unWrapMap c fields fileName tm with
      | .error e => .error e
      | .ok (t, tm1) =>
        let name := firstDotSegment fileName
        let r := typeExists name "topLevel" c t tm1
        processDocs c tn rest r.2
    | _ => processDocs c tn rest tm

/-- The outer loop of `typesFromMap` over the source files. -/
def typesFromMapAux (c : Config) : List (String × List JValue) → TypeMap → Except String TypeMap
  | [], tm => .ok tm
  | (tn, docs) :: rest, tm =>
    match processDocs c tn docs tm with
    | .error e => .error e
    | .ok tm1 => typesFromMapAux c rest tm1

/-- `typesFromMap` (`main.go`): the full JSON inference pass, from the
decoded `jsonIntoMap` output to the final type registry. -/
def typesFromMap (c : Config) (m : List (String × List JValue)) : Except String TypeMap :=
  typesFromMapAux c m []

/-- `OnlyRef`: a swagger object holding only a `$ref`. -/
structure OnlyRef where
  ref : String := ""
deriving DecidableEq, Repr

/-- `MetaSwaggerProperty` (the fields read by the engine; `required`,
`format`, `readOnly` and `enum` are decoded but never consulted).
`SwaggerType` is a string type, so `type` is modelled as a `String`. -/
structure MetaSwaggerProperty where
  type : String := ""
  ref : String := ""
  description : String := ""
  allOf : List OnlyRef := []
  anyOf : List OnlyRef := []
  oneOf : List OnlyRef := []
deriving DecidableEq, Repr

/-- `SwaggerProperty`: its meta fields, its `items` (a `SwaggerItems` is
just an inlined `MetaSwaggerProperty`), and optional recursive
`additionalProperties`. -/
inductive SwaggerProperty where
  | mk (meta : MetaSwaggerProperty) (items : MetaSwaggerProperty)
      (additionalProperties : Option SwaggerProperty)

/-- `typeFromRef`: the part of a `$ref` after the last `/`. -/
def typeFromRef (ref : String) : String :=
  String.mk ((splitOnChar '/' ref.data).getLastD ref.data)

/-- `processMultiple` (snapshot with descriptions): collect the referenced
names of a `oneOf`/`anyOf`/`allOf` list into `multiType`. -/
def processMultiple (multi : List OnlyRef) (description : String) : MaybeType :=
  { description := description, multiType := multi.map fun m => typeFromRef m.ref }

/-- Termination measure for `resolveSwaggerType`: the `items` recursion
erases `items.type`, the `additionalProperties` recursion walks down the
option chain. -/
def propWeight : SwaggerProperty → Nat
  | .mk _ items none => 1 + (if items.type ≠ "" then 1 else 0)
  | .mk _ items (some p) => 2 + (if items.type ≠ "" then 1 else 0) + propWeight p

/-- `resolveSwaggerType` (snapshot with descriptions): a swagger property
to a type descriptor. -/
def resolveSwaggerType : SwaggerProperty → MaybeType
  | .mk meta items addProps =>
    if meta.type = "array" then
      if items.ref ≠ "" then
        { isArray := true, description := meta.description, nameOftype := typeFromRef items.ref }
      else
        let fieldType : MaybeType := {}
        let fieldType := if items.allOf ≠ [] then processMultiple items.allOf meta.description else fieldType
        let fieldType := if items.oneOf ≠ [] then processMultiple items.oneOf meta.description else fieldType
        let fieldType := if items.anyOf ≠ [] then processMultiple items.anyOf meta.description else fieldType
        let fieldType := if h : items.type ≠ "" then resolveSwaggerType (.mk items {} none) else fieldType
        { fieldType with isArray := true }
    else if meta.type = "boolean" then { description := meta.description, typeOf := some "bool" }
    else if meta.type = "integer" then { description := meta.description, typeOf := some "int64" }
    else if meta.type = "number" then { description := meta.description, typeOf := some "float64" }
    else if meta.type = "string" then { description := meta.description, typeOf := some "string" }
    else if meta.type = "object" then
      if meta.allOf ≠ [] then processMultiple meta.allOf meta.description
      else if meta.oneOf ≠ [] then processMultiple meta.oneOf meta.description
      else if meta.anyOf ≠ [] then processMultiple meta.anyOf meta.description
      else
        match addProps with
        | some ap =>
          let aps := resolveSwaggerType ap
          if aps.nameOftype ≠ "" then { aps with nameOftype := "map[string]" ++ aps.nameOftype }
          else if aps.typeOf = none then { aps with nameOftype := "map[string]interface\x7b\x7d" }
          else aps
        | none =>
          if meta.ref ≠ "" then { description := meta.description, nameOftype := typeFromRef meta.ref }
          else { description := meta.description }
    else
      if meta.allOf ≠ [] then processMultiple meta.allOf meta.description
      else if meta.oneOf ≠ [] then processMultiple meta.oneOf meta.description
      else if meta.anyOf ≠ [] then processMultiple meta.anyOf meta.description
      else if meta.ref ≠ "" then { description := meta.description, nameOftype := typeFromRef meta.ref }
      else { description := meta.description }
termination_by p => propWeight p
decreasing_by
· rcases addProps with _ | p <;> simp [propWeight, h] <;> try omega
· simp [propWeight]
  try omega

/-- `processProperty`: resolve every property of a component. -/
def processProperty (ps : List (String × SwaggerProperty)) : Shape :=
  ps.map fun fp => (fp.1, resolveSwaggerType fp.2)

/-- `SwaggerSchema` (the fields the engine reads). -/
structure SwaggerSchema where
  type : String := ""
  description : String := ""
  properties : List (String × SwaggerProperty) := []
  allOf : List OnlyRef := []
  anyOf : List OnlyRef := []
  oneOf : List OnlyRef := []

/-- `SwaggerSimplification`, flattened to its `components.schemas` map. -/
structure SwaggerSimplification where
  schemas : List (String × SwaggerSchema) := []

/-- The loop body of `schemaIntoMap` (snapshot with `extraComments`). -/
def schemaIntoMapAux : List (String × SwaggerSchema) → TypeMap → List (String × String) →
    TypeMap × List (String × String)
  | [], result, extra => (result, extra)
  | (compName, component) :: rest, result, extra =>
    let extra := insertL compName component.description extra
    if component.type = "object" then
      if component.allOf ≠ [] then
        schemaIntoMapAux rest
          (insertL compName [("", processMultiple component.allOf component.description)] result) extra
      else if component.oneOf ≠ [] then
        schemaIntoMapAux rest
          (insertL compName [("", processMultiple component.oneOf component.description)] result) extra
      else if component.anyOf ≠ [] then
        schemaIntoMapAux rest
          (insertL compName [("", processMultiple component.anyOf component.description)] result) extra
      else
        schemaIntoMapAux rest (insertL compName (processProperty component.properties) result) extra
    else
      schemaIntoMapAux rest result extra

/-- `schemaIntoMap`: the swagger inference pass, from the decoded
`SwaggerSimplification` to the registry and the comment map. -/
def schemaIntoMap (tgt : SwaggerSimplification) : TypeMap × List (String × String) :=
  schemaIntoMapAux tgt.schemas [] []

/-- One descriptor's references are resolvable in a registry: a
`nameOftype` that is a real named reference (not empty, not the
`interface{}` fallback of an empty sample array) is a registry key, and so
is every `multiType` member. -/
def DescOk (tm : TypeMap) (v : MaybeType) : Prop :=
  (v.nameOftype ≠ "" → v.nameOftype ≠ "interface\x7b\x7d" →
    (lookupL tm v.nameOftype).isSome = true) ∧
  (∀ n ∈ v.multiType, (lookupL tm n).isSome = true)

/-- Every descriptor of a shape has resolvable references. -/
def ShapeRefsOk (tm : TypeMap) (s : Shape) : Prop :=
  ∀ f v, lookupL s f = some v → DescOk tm v

/-- The closed-world invariant on a registry: every named reference and
every multi-variant member stored anywhere in it is itself a registry key. -/
def RefsClosed (tm : TypeMap) : Prop :=
  ∀ k s, lookupL tm k = some s → ShapeRefsOk tm s

/-- Two registries that differ only in map iteration order at the shape
level: same keys in the same registry order, each shape a permutation. -/
def RegEquiv (t1 t2 : TypeMap) : Prop :=
  List.Forall₂ (fun a b => a.1 = b.1 ∧ a.2.Perm b.2) t1 t2

/-! ### Association-list lemmas -/

section MapLemmas

variable {α : Type}

theorem lookupL_insert_self (k : String) (v : α) (l : List (String × α)) :
    lookupL (insertL k v l) k = some v := by
  induction l with
  | nil => simp [insertL, lookupL]
  | cons e rest ih =>
    obtain ⟨ka, va⟩ := e
    by_cases h : ka = k <;> simp [insertL, lookupL, h, ih]

theorem lookupL_insert_ne {k k2 : String} (h : k2 ≠ k) (v : α) (l : List (String × α)) :
    lookupL (insertL k v l) k2 = lookupL l k2 := by
  have h2 : k ≠ k2 := Ne.symm h
  induction l with
  | nil => simp [insertL, lookupL, h2]
  | cons e rest ih =>
    obtain ⟨ka, va⟩ := e
    by_cases hk : ka = k
    · subst hk
      simp [insertL, lookupL, h2]
    · by_cases hk2 : ka = k2 <;> simp [insertL, lookupL, hk, hk2, ih, h]

theorem insertL_lookup_eq {k : String} {v : α} {l : List (String × α)}
    (h : lookupL l k = some v) : insertL k v l = l := by
  induction l with
  | nil => simp [lookupL] at h
  | cons e rest ih =>
    obtain ⟨ka, va⟩ := e
    by_cases hk : ka = k
    · subst hk
      simp [lookupL] at h
      simp [insertL, h]
    · simp [lookupL, hk] at h
      simp [insertL, hk, ih h]

theorem lookupL_mem {l : List (String × α)} {k : String} {v : α}
    (h : lookupL l k = some v) : (k, v) ∈ l := by
  induction l with
  | nil => simp [lookupL] at h
  | cons e rest ih =>
    obtain ⟨ka, va⟩ := e
    by_cases hk : ka = k
    · subst hk
      simp [lookupL] at h
      simp [h]
    · simp [lookupL, hk] at h
      simp [ih h]

theorem lookupL_isSome_of_mem {l : List (String × α)} {k : String} {v : α}
    (h : (k, v) ∈ l) : (lookupL l k).isSome = true := by
  induction l with
  | nil => simp at h
  | cons e rest ih =>
    obtain ⟨ka, va⟩ := e
    by_cases hk : ka = k
    · simp [lookupL, hk]
    · rcases List.mem_cons.mp h with h1 | h1
      · exact absurd (congrArg Prod.fst h1).symm hk
      · simp [lookupL, hk, ih h1]

theorem lookupL_eq_of_nodup_mem {l : List (String × α)}
    (hn : (l.map Prod.fst).Nodup) {k : String} {v : α}
    (h : (k, v) ∈ l) : lookupL l k = some v := by
  induction l with
  | nil => simp at h
  | cons e rest ih =>
    obtain ⟨ka, va⟩ := e
    rcases List.mem_cons.mp h with h1 | h1
    · cases h1
      simp [lookupL]
    · simp only [List.map_cons, List.nodup_cons] at hn
      have hk : ka ≠ k := by
        intro hk
        exact hn.1 (hk ▸ (List.mem_map.mpr ⟨(k, v), h1, rfl⟩))
      simp [lookupL, hk, ih hn.2 h1]

theorem lookupL_append (l1 l2 : List (String × α)) (k : String) :
    lookupL (l1 ++ l2) k =
      if (lookupL l1 k).isSome then lookupL l1 k else lookupL l2 k := by
  induction l1 with
  | nil => simp [lookupL]
  | cons e rest ih =>
    obtain ⟨ka, va⟩ := e
    by_cases hk : ka = k <;> simp [lookupL, hk, ih]

theorem lookupL_insert_cases {l : List (String × α)} {k k2 : String} {v v2 : α}
    (h : lookupL (insertL k v l) k2 = some v2) :
    (k2 = k ∧ v2 = v) ∨ lookupL l k2 = some v2 := by
  by_cases hk : k2 = k
  · subst hk
    rw [lookupL_insert_self] at h
    exact Or.inl ⟨rfl, (Option.some.inj h).symm⟩
  · exact Or.inr (lookupL_insert_ne hk v l ▸ h)

theorem lookupL_insert_isSome {l : List (String × α)} {k2 : String}
    (h : (lookupL l k2).isSome = true) (k : String) (v : α) :
    (lookupL (insertL k v l) k2).isSome = true := by
  by_cases hk : k2 = k
  · subst hk
    simp [lookupL_insert_self]
  · rw [lookupL_insert_ne hk]
    exact h

theorem insertL_map_fst {l : List (String × α)} {k : String}
    (h : (lookupL l k).isSome = true) (v : α) :
    (insertL k v l).map Prod.fst = l.map Prod.fst := by
  induction l with
  | nil => simp [lookupL] at h
  | cons e rest ih =>
    obtain ⟨ka, va⟩ := e
    by_cases hk : ka = k
    · simp [insertL, hk]
    · simp only [lookupL, if_neg hk] at h
      simp [insertL, hk, ih h]

end MapLemmas

/-! ### `maybeType.Equals` lemmas -/

theorem Equals_comm (a b : MaybeType) : a.Equals b = b.Equals a := by
  obtain ⟨aA, aT, aN, aO, aM, aD⟩ := a
  obtain ⟨bA, bT, bN, bO, bM, bD⟩ := b
  rcases aT with _ | x <;> rcases bT with _ | y <;>
    simp only [MaybeType.Equals] <;>
    first
      | (rw [decide_eq_decide]; exact eq_comm)
      | (by_cases h1 : aN = "" <;> by_cases h2 : bN = "" <;> simp [h1, h2, eq_comm])

theorem Equals_self_of (a : MaybeType) (h : a.typeOf ≠ none ∨ a.nameOftype ≠ "") :
    a.Equals a = true := by
  obtain ⟨aA, aT, aN, aO, aM, aD⟩ := a
  rcases aT with _ | x
  · rcases h with h | h
    · simp at h
    · simp only [MaybeType.Equals] at *
      simp [h]
  · simp [MaybeType.Equals]

/-! ### `missingFields` and conflict-loop lemmas -/

theorem missing_mem_sub {ours existing : Shape} {kv : String × MaybeType}
    (h : kv ∈ missingFields ours existing) : kv ∈ ours :=
  List.mem_of_mem_filter h

theorem lookupL_missing_some {ours existing : Shape} {f : String} {v : MaybeType}
    (he : lookupL existing f = none) (ho : lookupL ours f = some v) :
    lookupL (missingFields ours existing) f = some v := by
  induction ours with
  | nil => simp [lookupL] at ho
  | cons e rest ih =>
    obtain ⟨g, w⟩ := e
    by_cases hg : g = f
    · subst hg
      have hw : w = v := by
        simp only [lookupL, if_pos rfl] at ho
        exact Option.some.inj ho
      subst hw
      rw [missingFields, List.filter_cons, if_pos (by simp [he])]
      simp [lookupL]
    · simp only [lookupL, if_neg hg] at ho
      by_cases hp : (lookupL existing g).isNone
      · rw [missingFields, List.filter_cons, if_pos (by simpa using hp)]
        simp only [lookupL, if_neg hg]
        exact ih ho
      · rw [missingFields, List.filter_cons, if_neg (by simpa using hp)]
        exact ih ho

theorem lookupL_missing_to {ours existing : Shape} {f : String} {v : MaybeType}
    (h : lookupL (missingFields ours existing) f = some v) :
    lookupL ours f = some v ∧ lookupL existing f = none := by
  induction ours with
  | nil => simp [missingFields, lookupL] at h
  | cons e rest ih =>
    obtain ⟨g, w⟩ := e
    by_cases hp : (lookupL existing g).isNone
    · rw [missingFields, List.filter_cons, if_pos (by simpa using hp)] at h
      by_cases hg : g = f
      · subst hg
        simp only [lookupL, if_pos rfl] at h ⊢
        exact ⟨h, Option.isNone_iff_eq_none.mp hp⟩
      · simp only [lookupL, if_neg hg] at h ⊢
        exact ih h
    · rw [missingFields, List.filter_cons, if_neg (by simpa using hp)] at h
      have hrest := ih h
      by_cases hg : g = f
      · subst hg
        exact absurd (Option.isNone_iff_eq_none.mpr hrest.2) hp
      · simp only [lookupL, if_neg hg]
        exact hrest

theorem missingFields_self (ours : Shape) : missingFields ours ours = [] := by
  rw [missingFields, List.filter_eq_nil_iff]
  intro kv hkv
  simp [Option.isNone_iff_eq_none]
  intro hnone
  have := lookupL_isSome_of_mem (l := ours) (k := kv.1) (v := kv.2) (by simpa using hkv)
  rw [hnone] at this
  simp at this

theorem conflictExisting_true_of {ex ours : Shape} {f : String} {v vo : MaybeType}
    (hv : (f, v) ∈ ex) (ho : lookupL ours f = some vo) (hne : v.Equals vo = false) :
    conflictExisting ex ours = true := by
  rw [conflictExisting, List.any_eq_true]
  exact ⟨(f, v), hv, by simp [ho, hne]⟩

theorem conflictExisting_false_forall {ex ours : Shape}
    (h : conflictExisting ex ours = false) {f : String} {v vo : MaybeType}
    (hv : (f, v) ∈ ex) (ho : lookupL ours f = some vo) : v.Equals vo = true := by
  rw [conflictExisting, List.any_eq_false] at h
  have := h (f, v) hv
  simp [ho] at this
  exact this

theorem conflictOurs_true_of {ours ex : Shape} {f : String} {v vo : MaybeType}
    (hv : (f, v) ∈ ours) (ho : lookupL ex f = some vo) (hne : v.Equals vo = false) :
    conflictOurs ours ex = true := by
  rw [conflictOurs, List.any_eq_true]
  exact ⟨(f, v), hv, by simp [ho, hne]⟩

theorem conflictOurs_false_forall {ours ex : Shape}
    (h : conflictOurs ours ex = false) {f : String} {v vo : MaybeType}
    (hv : (f, v) ∈ ours) (ho : lookupL ex f = some vo) : v.Equals vo = true := by
  rw [conflictOurs, List.any_eq_false] at h
  have := h (f, v) hv
  simp [ho] at this
  exact this

/-! ### `findParented` lemmas -/

theorem findParented_lookupL {l : TypeMap} {s k : String} {v : Shape}
    (h : findParented l s = some (k, v)) :
    lookupL l k = some v ∧ lastSegment k = s := by
  induction l with
  | nil => simp [findParented] at h
  | cons e rest ih =>
    obtain ⟨ka, va⟩ := e
    by_cases hp : lastSegment ka = s
    · rw [findParented, List.find?_cons_of_pos _ (by simpa using hp)] at h
      cases h
      exact ⟨by simp [lookupL], hp⟩
    · rw [findParented, List.find?_cons_of_neg _ (by simpa using hp)] at h
      have hr := ih h
      have hk : ka ≠ k := by
        intro hk
        exact hp (hk ▸ hr.2)
      exact ⟨by simpa [lookupL, hk] using hr.1, hr.2⟩

theorem findParented_insert_self {l : TypeMap} {s k : String} {v : Shape}
    (h : findParented l s = some (k, v)) (w : Shape) :
    findParented (insertL k w l) s = some (k, w) := by
  induction l with
  | nil => simp [findParented] at h
  | cons e rest ih =>
    obtain ⟨ka, va⟩ := e
    by_cases hp : lastSegment ka = s
    · rw [findParented, List.find?_cons_of_pos _ (by simpa using hp)] at h
      cases h
      rw [insertL, if_pos rfl, findParented, List.find?_cons_of_pos _ (by simpa using hp)]
    · rw [findParented, List.find?_cons_of_neg _ (by simpa using hp)] at h
      have hk : ka ≠ k := by
        intro hk
        exact hp (hk ▸ (findParented_lookupL h).2)
      rw [insertL, if_neg hk, findParented, List.find?_cons_of_neg _ (by simpa using hp)]
      exact ih h

theorem findParented_insert_other {l : TypeMap} {s k k2 : String} {v : Shape}
    (h : findParented l s = some (k, v)) (h2 : lastSegment k2 = s) (hne : k2 ≠ k)
    (w : Shape) : findParented (insertL k2 w l) s = some (k, v) := by
  induction l with
  | nil => simp [findParented] at h
  | cons e rest ih =>
    obtain ⟨ka, va⟩ := e
    by_cases hp : lastSegment ka = s
    · rw [findParented, List.find?_cons_of_pos _ (by simpa using hp)] at h
      cases h
      rw [insertL, if_neg (Ne.symm hne), findParented,
        List.find?_cons_of_pos _ (by simpa using hp)]
    · rw [findParented, List.find?_cons_of_neg _ (by simpa using hp)] at h
      have hk : ka ≠ k2 := by
        intro hk
        exact hp (hk ▸ h2)
      rw [insertL, if_neg hk, findParented, List.find?_cons_of_neg _ (by simpa using hp)]
      exact ih h

/-! ### `splitOnChar` and `lastSegment` lemmas -/

theorem splitOnChar_ne_nil (sep : Char) (l : List Char) : splitOnChar sep l ≠ [] := by
  cases l with
  | nil => simp [splitOnChar]
  | cons c cs =>
    rw [splitOnChar]
    rcases h : splitOnChar sep cs with _ | ⟨s, ss⟩ <;> simp <;> split <;> simp

theorem splitOnChar_sep_cons (sep : Char) (ys : List Char) :
    splitOnChar sep (sep :: ys) = [] :: splitOnChar sep ys := by
  rw [splitOnChar]
  rcases h : splitOnChar sep ys with _ | ⟨s, ss⟩
  · exact absurd h (splitOnChar_ne_nil sep ys)
  · simp

theorem splitOnChar_append_sep_length (sep : Char) (xs ys : List Char) :
    2 ≤ (splitOnChar sep (xs ++ sep :: ys)).length := by
  induction xs with
  | nil =>
    rw [List.nil_append, splitOnChar_sep_cons]
    have := splitOnChar_ne_nil sep ys
    rcases h : splitOnChar sep ys with _ | ⟨s, ss⟩
    · exact absurd h this
    · simp
  | cons c xs ih =>
    rw [List.cons_append, splitOnChar]
    rcases h : splitOnChar sep (xs ++ sep :: ys) with _ | ⟨s, ss⟩
    · exact absurd h (splitOnChar_ne_nil sep _)
    · rw [h] at ih
      by_cases hc : c = sep <;> simp [hc] <;> simpa using ih

theorem lastSegChars_append (sep : Char) (xs ys : List Char) :
    (splitOnChar sep (xs ++ sep :: ys)).getLastD [] = (splitOnChar sep ys).getLastD [] := by
  induction xs with
  | nil =>
    rw [List.nil_append, splitOnChar_sep_cons]
    rcases h : splitOnChar sep ys with _ | ⟨s, ss⟩
    · exact absurd h (splitOnChar_ne_nil sep ys)
    · simp [List.getLastD_cons]
  | cons c xs ih =>
    rw [List.cons_append, splitOnChar]
    rcases h : splitOnChar sep (xs ++ sep :: ys) with _ | ⟨s, ss⟩
    · exact absurd h (splitOnChar_ne_nil sep _)
    · have hss : ss ≠ [] := by
        have hlen := splitOnChar_append_sep_length sep xs ys
        rw [h] at hlen
        simp at hlen
        intro hnil
        rw [hnil] at hlen
        simp at hlen
      rw [h] at ih
      show (if c = sep then [] :: s :: ss else (c :: s) :: ss).getLastD [] =
        (splitOnChar sep ys).getLastD []
      by_cases hc : c = sep
      · rw [if_pos hc, List.getLastD_cons]
        exact ih
      · rw [if_neg hc, List.getLastD_cons]
        rcases ss with _ | ⟨t, ts⟩
        · exact absurd rfl hss
        · rw [List.getLastD_cons]
          rw [List.getLastD_cons, List.getLastD_cons] at ih
          exact ih

theorem lastSegment_append_dot (a b : String) :
    lastSegment (a ++ "." ++ b) = lastSegment b := by
  have hdata : (a ++ "." ++ b).data = a.data ++ '.' :: b.data := by
    rw [String.data_append, String.data_append]
    simp
  rw [lastSegment, hdata, lastSegChars_append]
  rfl

/-! ### Permutation lemmas -/

theorem any_perm {β : Type} {l1 l2 : List β} (h : l1.Perm l2) (p : β → Bool) :
    l1.any p = l2.any p := by
  cases hb : l2.any p
  · rw [List.any_eq_false] at hb ⊢
    intro x hx
    exact hb x (h.mem_iff.mp hx)
  · rw [List.any_eq_true] at hb ⊢
    obtain ⟨x, hx, hpx⟩ := hb
    exact ⟨x, h.mem_iff.mpr hx, hpx⟩

theorem lookupL_perm {α : Type} {l1 l2 : List (String × α)} (h : l1.Perm l2)
    (hn : (l1.map Prod.fst).Nodup) (k : String) : lookupL l1 k = lookupL l2 k := by
  induction h with
  | nil => rfl
  | cons x h ih =>
    obtain ⟨ka, va⟩ := x
    simp only [List.map_cons, List.nodup_cons] at hn
    by_cases hk : ka = k <;> simp [lookupL, hk, ih hn.2]
  | swap x y l =>
    obtain ⟨xa, xv⟩ := x
    obtain ⟨ya, yv⟩ := y
    simp only [List.map_cons, List.nodup_cons, List.mem_cons] at hn
    have hxy : ya ≠ xa := fun hh => hn.1 (Or.inl hh)
    by_cases h1 : ya = k
    · subst h1
      simp [lookupL, Ne.symm hxy]
    · by_cases h2 : xa = k <;> simp [lookupL, h1, h2]
  | trans h1 h2 ih1 ih2 =>
    have hn2 := (List.Perm.nodup_iff (h1.map Prod.fst)).mp hn
    rw [ih1 hn, ih2 hn2]

theorem conflictExisting_congr {ex1 ex2 ours1 ours2 : Shape} (hex : ex1.Perm ex2)
    (hlk : ∀ k, lookupL ours1 k = lookupL ours2 k) :
    conflictExisting ex1 ours1 = conflictExisting ex2 ours2 := by
  have hp : (fun kv : String × MaybeType =>
      match lookupL ours1 kv.1 with
      | some vo => !(kv.2.Equals vo)
      | none => false) =
      (fun kv : String × MaybeType =>
      match lookupL ours2 kv.1 with
      | some vo => !(kv.2.Equals vo)
      | none => false) := funext fun kv => by rw [hlk kv.1]
  rw [conflictExisting, conflictExisting, any_perm hex, hp]

theorem conflictOurs_congr {ours1 ours2 ex1 ex2 : Shape} (hours : ours1.Perm ours2)
    (hlk : ∀ k, lookupL ex1 k = lookupL ex2 k) :
    conflictOurs ours1 ex1 = conflictOurs ours2 ex2 := by
  have hp : (fun kv : String × MaybeType =>
      match lookupL ex1 kv.1 with
      | some vo => !(kv.2.Equals vo)
      | none => false) =
      (fun kv : String × MaybeType =>
      match lookupL ex2 kv.1 with
      | some vo => !(kv.2.Equals vo)
      | none => false) := funext fun kv => by rw [hlk kv.1]
  rw [conflictOurs, conflictOurs, any_perm hours, hp]

theorem missingFields_congr {ours1 ours2 ex1 ex2 : Shape} (hours : ours1.Perm ours2)
    (hlk : ∀ k, lookupL ex1 k = lookupL ex2 k) :
    (missingFields ours1 ex1).Perm (missingFields ours2 ex2) := by
  have hp : (fun kv : String × MaybeType => (lookupL ex1 kv.1).isNone) =
      (fun kv : String × MaybeType => (lookupL ex2 kv.1).isNone) :=
    funext fun kv => by rw [hlk kv.1]
  rw [missingFields, missingFields, hp]
  exact hours.filter _

/-! ### `RegEquiv` lemmas -/

theorem regEquiv_lookup {t1 t2 : TypeMap} (h : RegEquiv t1 t2) (k : String) :
    (lookupL t1 k = none ∧ lookupL t2 k = none) ∨
      ∃ s1 s2, lookupL t1 k = some s1 ∧ lookupL t2 k = some s2 ∧ s1.Perm s2 := by
  induction h with
  | nil => exact Or.inl ⟨rfl, rfl⟩
  | cons hab h ih =>
    rename_i a b t1r t2r
    obtain ⟨a1, a2⟩ := a
    obtain ⟨b1, b2⟩ := b
    obtain ⟨hk, hperm⟩ := hab
    simp only at hk hperm
    subst hk
    by_cases ha : a1 = k
    · exact Or.inr ⟨a2, b2, by simp [lookupL, ha], by simp [lookupL, ha], hperm⟩
    · simpa [lookupL, ha] using ih

theorem regEquiv_insert {t1 t2 : TypeMap} (h : RegEquiv t1 t2) {s1 s2 : Shape}
    (hs : s1.Perm s2) (k : String) :
    RegEquiv (insertL k s1 t1) (insertL k s2 t2) := by
  induction h with
  | nil => exact List.Forall₂.cons ⟨rfl, hs⟩ List.Forall₂.nil
  | cons hab h ih =>
    rename_i a b t1r t2r
    obtain ⟨a1, a2⟩ := a
    obtain ⟨b1, b2⟩ := b
    obtain ⟨hk, hperm⟩ := hab
    simp only at hk
    subst hk
    by_cases ha : a1 = k
    · rw [insertL, if_pos ha, insertL, if_pos ha]
      exact List.Forall₂.cons ⟨rfl, hs⟩ h
    · rw [insertL, if_neg ha, insertL, if_neg ha]
      exact List.Forall₂.cons ⟨rfl, hperm⟩ ih

theorem regEquiv_findParented {t1 t2 : TypeMap} (h : RegEquiv t1 t2) (s : String) :
    (findParented t1 s = none ∧ findParented t2 s = none) ∨
      ∃ k v1 v2, findParented t1 s = some (k, v1) ∧ findParented t2 s = some (k, v2) ∧
        v1.Perm v2 := by
  induction h with
  | nil => exact Or.inl ⟨rfl, rfl⟩
  | cons hab h ih =>
    rename_i a b t1r t2r
    obtain ⟨a1, a2⟩ := a
    obtain ⟨b1, b2⟩ := b
    obtain ⟨hk, hperm⟩ := hab
    simp only at hk
    subst hk
    by_cases hp : lastSegment a1 = s
    · refine Or.inr ⟨a1, a2, b2, ?_, ?_, hperm⟩
      · rw [findParented, List.find?_cons_of_pos _ (by simpa using hp)]
      · rw [findParented, List.find?_cons_of_pos _ (by simpa using hp)]
    · rw [findParented, List.find?_cons_of_neg _ (by simpa using hp),
        findParented, List.find?_cons_of_neg _ (by simpa using hp)]
      exact ih

/-! ### `typeExists` unfolding lemmas -/

theorem typeExists_lookup_some {name parent : String} {c : Config} {ours : Shape}
    {typeMap : TypeMap} {existing : Shape}
    (hlook : lookupL typeMap (canonicalKeyOf c name) = some existing) :
    typeExists name parent c ours typeMap =
      typeExistsMatch (canonicalKeyOf c name) parent ours existing typeMap := by
  simp only [typeExists, hlook]

theorem typeExists_found {name parent : String} {c : Config} {ours : Shape}
    {typeMap : TypeMap} {k : String} {ex : Shape}
    (hnone : lookupL typeMap (canonicalKeyOf c name) = none)
    (hfp : findParented typeMap (canonicalKeyOf c name) = some (k, ex)) :
    typeExists name parent c ours typeMap = typeExistsMatch k parent ours ex typeMap := by
  simp only [typeExists, hnone, hfp]

theorem typeExists_new {name parent : String} {c : Config} {ours : Shape}
    {typeMap : TypeMap}
    (hnone : lookupL typeMap (canonicalKeyOf c name) = none)
    (hfp : findParented typeMap (canonicalKeyOf c name) = none) :
    typeExists name parent c ours typeMap =
      ((canonicalKeyOf c name, false), insertL (canonicalKeyOf c name) ours typeMap) := by
  simp only [typeExists, hnone, hfp]

theorem typeExistsMatch_conflict {foundName parent : String} {ours existing : Shape}
    {typeMap : TypeMap}
    (h : conflictExisting existing ours = true ∨ conflictOurs ours existing = true) :
    typeExistsMatch foundName parent ours existing typeMap =
      ((parent ++ "." ++ foundName, false),
        insertL (parent ++ "." ++ foundName) ours typeMap) := by
  rcases h with h | h
  · simp [typeExistsMatch, h]
  · by_cases h1 : conflictExisting existing ours <;> simp [typeExistsMatch, h, h1]

theorem typeExistsMatch_merge {foundName parent : String} {ours existing : Shape}
    {typeMap : TypeMap}
    (h1 : conflictExisting existing ours = false)
    (h2 : conflictOurs ours existing = false) :
    typeExistsMatch foundName parent ours existing typeMap =
      ((foundName, true),
        insertL foundName (existing ++ missingFields ours existing) typeMap) := by
  simp [typeExistsMatch, h1, h2]

theorem parent_key_ne (parent k : String) : k ≠ parent ++ "." ++ k := by
  intro h
  have hlen := congrArg String.length h
  rw [String.length_append, String.length_append] at hlen
  have hdot : ("." : String).length = 1 := rfl
  rw [hdot] at hlen
  omega

theorem typeExists_snd (name parent : String) (c : Config) (ours : Shape)
    (typeMap : TypeMap) :
    ∃ S : Shape, (typeExists name parent c ours typeMap).2 =
      insertL (typeExists name parent c ours typeMap).1.1 S typeMap := by
  rcases hl : lookupL typeMap (canonicalKeyOf c name) with _ | ex
  · rcases hf : findParented typeMap (canonicalKeyOf c name) with _ | ⟨k, ex⟩
    · rw [typeExists_new hl hf]
      exact ⟨ours, rfl⟩
    · rw [typeExists_found hl hf]
      by_cases h1 : conflictExisting ex ours
      · rw [typeExistsMatch_conflict (Or.inl h1)]
        exact ⟨ours, rfl⟩
      · by_cases h2 : conflictOurs ours ex
        · rw [typeExistsMatch_conflict (Or.inr h2)]
          exact ⟨ours, rfl⟩
        · rw [typeExistsMatch_merge (Bool.not_eq_true _ ▸ h1) (Bool.not_eq_true _ ▸ h2)]
          exact ⟨ex ++ missingFields ours ex, rfl⟩
  · rw [typeExists_lookup_some hl]
    by_cases h1 : conflictExisting ex ours
    · rw [typeExistsMatch_conflict (Or.inl h1)]
      exact ⟨ours, rfl⟩
    · by_cases h2 : conflictOurs ours ex
      · rw [typeExistsMatch_conflict (Or.inr h2)]
        exact ⟨ours, rfl⟩
      · rw [typeExistsMatch_merge (Bool.not_eq_true _ ▸ h1) (Bool.not_eq_true _ ▸ h2)]
        exact ⟨ex ++ missingFields ours ex, rfl⟩

/-! ### Claim theorems -/

/-- C1: Conflict fork: when the candidate's canonical key maps to an
existing shape and some field present in both shapes has inequivalent
descriptors, `typeExists` registers the candidate under the new qualified
key `parent ++ "." ++ key`, returns that key (with `false`), and the entry
under the original key is exactly the one from before the call. -/
theorem conflict_fork_preserves_original (name parent : String) (c : Config)
    (ours existing : Shape) (typeMap : TypeMap)
    (hlook : lookupL typeMap (canonicalKeyOf c name) = some existing)
    (hconf : ∃ f v vo, lookupL existing f = some v ∧ lookupL ours f = some vo ∧
      v.Equals vo = false) :
    (typeExists name parent c ours typeMap).1.1 =
        parent ++ "." ++ canonicalKeyOf c name ∧
    (typeExists name parent c ours typeMap).1.2 = false ∧
    lookupL (typeExists name parent c ours typeMap).2
        (parent ++ "." ++ canonicalKeyOf c name) = some ours ∧
    lookupL (typeExists name parent c ours typeMap).2 (canonicalKeyOf c name) =
        some existing := by
  obtain ⟨f, v, vo, hv, ho, hne⟩ := hconf
  have hc1 : conflictExisting existing ours = true :=
    conflictExisting_true_of (lookupL_mem hv) ho hne
  rw [typeExists_lookup_some hlook, typeExistsMatch_conflict (Or.inl hc1)]
  refine ⟨rfl, rfl, lookupL_insert_self .., ?_⟩
  rw [lookupL_insert_ne (parent_key_ne parent (canonicalKeyOf c name))]
  exact hlook

/-- Witness for C1 at a concrete conflicting pair of shapes. -/
theorem conflict_fork_preserves_original_witness :
    (typeExists "t" "p" {} [("x", { typeOf := some "float64" })]
        [("t", [("x", { typeOf := some "string" })])]).1.1 =
      "p" ++ "." ++ canonicalKeyOf {} "t" ∧
    (typeExists "t" "p" {} [("x", { typeOf := some "float64" })]
        [("t", [("x", { typeOf := some "string" })])]).1.2 = false ∧
    lookupL (typeExists "t" "p" {} [("x", { typeOf := some "float64" })]
        [("t", [("x", { typeOf := some "string" })])]).2
        ("p" ++ "." ++ canonicalKeyOf {} "t") = some [("x", { typeOf := some "float64" })] ∧
    lookupL (typeExists "t" "p" {} [("x", { typeOf := some "float64" })]
        [("t", [("x", { typeOf := some "string" })])]).2 (canonicalKeyOf {} "t") =
      some [("x", { typeOf := some "string" })] :=
  conflict_fork_preserves_original "t" "p" {} [("x", { typeOf := some "float64" })]
    [("x", { typeOf := some "string" })] [("t", [("x", { typeOf := some "string" })])]
    (by decide)
    ⟨"x", { typeOf := some "string" }, { typeOf := some "float64" },
      by decide, by decide, by decide⟩

/-- C2: Widening law: when every field present in both shapes has
equivalent descriptors, `typeExists` widens the existing entry with the
candidate-only fields (existing fields kept), returns the same key with
`true`, and creates no new key. -/
theorem widening_merge_union (name parent : String) (c : Config)
    (ours existing : Shape) (typeMap : TypeMap)
    (hlook : lookupL typeMap (canonicalKeyOf c name) = some existing)
    (hnodupE : (existing.map Prod.fst).Nodup) (hnodupO : (ours.map Prod.fst).Nodup)
    (hcompat : ∀ f v vo, lookupL existing f = some v → lookupL ours f = some vo →
      v.Equals vo = true) :
    (typeExists name parent c ours typeMap).1.1 = canonicalKeyOf c name ∧
    (typeExists name parent c ours typeMap).1.2 = true ∧
    lookupL (typeExists name parent c ours typeMap).2 (canonicalKeyOf c name) =
      some (existing ++ missingFields ours existing) ∧
    (∀ f, lookupL (existing ++ missingFields ours existing) f =
      if (lookupL existing f).isSome then lookupL existing f else lookupL ours f) ∧
    (typeExists name parent c ours typeMap).2.map Prod.fst = typeMap.map Prod.fst := by
  have hc1 : conflictExisting existing ours = false := by
    rw [conflictExisting, List.any_eq_false]
    intro kv hkv
    rcases hlo : lookupL ours kv.1 with _ | vo
    · simp
    · have hv : lookupL existing kv.1 = some kv.2 := lookupL_eq_of_nodup_mem hnodupE hkv
      simp [hcompat _ _ _ hv hlo]
  have hc2 : conflictOurs ours existing = false := by
    rw [conflictOurs, List.any_eq_false]
    intro kv hkv
    rcases hle : lookupL existing kv.1 with _ | ve
    · simp
    · have hv : lookupL ours kv.1 = some kv.2 := lookupL_eq_of_nodup_mem hnodupO hkv
      have heq : kv.2.Equals ve = true := by
        rw [Equals_comm]
        exact hcompat _ _ _ hle hv
      simp [heq]
  rw [typeExists_lookup_some hlook, typeExistsMatch_merge hc1 hc2]
  refine ⟨rfl, rfl, lookupL_insert_self .., ?_, ?_⟩
  · intro f
    rw [lookupL_append]
    by_cases hf : (lookupL existing f).isSome
    · simp [hf]
    · rw [if_neg hf, if_neg hf]
      have hnone : lookupL existing f = none := Option.not_isSome_iff_eq_none.mp hf
      rcases ho : lookupL ours f with _ | v
      · rcases hm : lookupL (missingFields ours existing) f with _ | w
        · rfl
        · have := (lookupL_missing_to hm).1
          rw [ho] at this
          cases this
      · exact lookupL_missing_some hnone ho
  · exact insertL_map_fst (by simp [hlook]) _

/-- Witness for C2: a compatible candidate adds its new field and keeps
the key set unchanged. -/
theorem widening_merge_union_witness :
    (typeExists "t" "p" {}
        [("x", { typeOf := some "string" }), ("y", { typeOf := some "float64" })]
        [("t", [("x", { typeOf := some "string" })])]).1.1 = canonicalKeyOf {} "t" ∧
    (typeExists "t" "p" {}
        [("x", { typeOf := some "string" }), ("y", { typeOf := some "float64" })]
        [("t", [("x", { typeOf := some "string" })])]).1.2 = true ∧
    lookupL (typeExists "t" "p" {}
        [("x", { typeOf := some "string" }), ("y", { typeOf := some "float64" })]
        [("t", [("x", { typeOf := some "string" })])]).2 (canonicalKeyOf {} "t") =
      some ([("x", { typeOf := some "string" })] ++
        missingFields
          [("x", { typeOf := some "string" }), ("y", { typeOf := some "float64" })]
          [("x", { typeOf := some "string" })]) ∧
    (∀ f, lookupL (([("x", { typeOf := some "string" })] : Shape) ++
        missingFields
          [("x", { typeOf := some "string" }), ("y", { typeOf := some "float64" })]
          [("x", { typeOf := some "string" })]) f =
      if (lookupL ([("x", { typeOf := some "string" })] : Shape) f).isSome then
        lookupL ([("x", { typeOf := some "string" })] : Shape) f
      else lookupL ([("x", { typeOf := some "string" }),
        ("y", { typeOf := some "float64" })] : Shape) f) ∧
    (typeExists "t" "p" {}
        [("x", { typeOf := some "string" }), ("y", { typeOf := some "float64" })]
        [("t", [("x", { typeOf := some "string" })])]).2.map Prod.fst =
      ([("t", [("x", { typeOf := some "string" })])] : TypeMap).map Prod.fst :=
  widening_merge_union "t" "p" {}
    [("x", { typeOf := some "string" }), ("y", { typeOf := some "float64" })]
    [("x", { typeOf := some "string" })] [("t", [("x", { typeOf := some "string" })])]
    (by decide) (by decide) (by decide)
    (fun f v vo hv ho => by
      have hf : f = "x" := by
        by_cases hx : f = "x"
        · exact hx
        · simp [lookupL, Ne.symm hx] at hv
      subst hf
      simp [lookupL] at hv ho
      subst hv
      subst ho
      decide)

/-- C6 counterexample: for raw name "ABc" and scope "a_b" the canonical
form "a_bc" does begin with the scope name as a strict prefix and is
strictly longer, yet `normalizeNames` does not strip the prefix (the code
tests the lower-cased raw name, "abc", against the scope, not the
canonical form). -/
theorem normalizeNames_strip_counterexample :
    canonicalForm "ABc" = "a_bc" ∧
    ("a_b" : String).data.isPrefixOf ("a_bc" : String).data = true ∧
    ("a_bc" : String).data.length > ("a_b" : String).data.length ∧
    String.mk (("a_bc" : String).data.drop ("a_b" : String).data.length) = "c" ∧
    normalizeNames "ABc" "a_b" = "a_bc" ∧
    normalizeNames "ABc" "a_b" ≠ "c" := by decide

/-- C6 amended: `IssueType`, `issueType` and `issue_type` normalize to the
same canonical key (under the default scope "main"), and the prefix strip
is governed by the lower-cased raw name: exactly when the lower-cased raw
name starts with the lower-cased scope name and their lengths differ, the
result is the canonical form with the scope name's length dropped from its
front; otherwise it is the canonical form itself. -/
theorem normalizeNames_spec :
    (normalizeNames "IssueType" "main" = "issue_type" ∧
     normalizeNames "issueType" "main" = "issue_type" ∧
     normalizeNames "issue_type" "main" = "issue_type") ∧
    (∀ name scope : String,
      (lowerChars scope.data).isPrefixOf (lowerChars name.data) = true →
      name.data.length ≠ scope.data.length →
      normalizeNames name scope =
        String.mk ((canonicalForm name).data.drop scope.data.length)) ∧
    (∀ name scope : String,
      ¬((lowerChars scope.data).isPrefixOf (lowerChars name.data) = true ∧
        name.data.length ≠ scope.data.length) →
      normalizeNames name scope = canonicalForm name) := by
  refine ⟨by decide, ?_, ?_⟩
  · intro name scope h1 h2
    simp only [normalizeNames]
    rw [if_pos ⟨h1, h2⟩]
  · intro name scope h
    simp only [normalizeNames]
    rw [if_neg h]

/-- Witness for C6 amended: the stuttering prefix of `issue_type` in scope
`issue` is stripped. -/
theorem normalizeNames_spec_witness :
    normalizeNames "issue_type" "issue" =
      String.mk ((canonicalForm "issue_type").data.drop ("issue" : String).data.length) :=
  normalizeNames_spec.2.1 "issue_type" "issue" (by decide) (by decide)

/-- C7 counterexample: three calls; the second forks the key "p.k" with a
shape holding field "y"; the third call conflicts again on the base key and
re-forks to the same name "p.k", wholly replacing that entry — the field
"y" it previously had is gone. -/
theorem fork_overwrites_forked_entry :
    lookupL (typeExists "k" "p" {}
        [("x", { typeOf := some "float64" }), ("y", { typeOf := some "bool" })]
        (typeExists "k" "q" {} [("x", { typeOf := some "string" })] []).2).2 "p.k" =
      some [("x", { typeOf := some "float64" }), ("y", { typeOf := some "bool" })] ∧
    lookupL (typeExists "k" "p" {} [("x", { typeOf := some "bool" })]
        (typeExists "k" "p" {}
          [("x", { typeOf := some "float64" }), ("y", { typeOf := some "bool" })]
          (typeExists "k" "q" {} [("x", { typeOf := some "string" })] []).2).2).2 "p.k" =
      some [("x", { typeOf := some "bool" })] ∧
    lookupL ([("x", { typeOf := some "bool" })] : Shape) "y" = none := by decide

/-- C7 amended: registry keys are never removed by `typeExists`, and a
merging call (one that returns `true`) preserves every field of every
stored shape; only a conflict fork may replace (and thereby shrink) the
entry under the freshly minted parent-qualified key. -/
theorem typeExists_monotone (name parent : String) (c : Config) (ours : Shape)
    (typeMap : TypeMap) :
    (∀ k, (lookupL typeMap k).isSome = true →
      (lookupL (typeExists name parent c ours typeMap).2 k).isSome = true) ∧
    ((typeExists name parent c ours typeMap).1.2 = true →
      ∀ k s f v, lookupL typeMap k = some s → lookupL s f = some v →
        ∃ s2, lookupL (typeExists name parent c ours typeMap).2 k = some s2 ∧
          lookupL s2 f = some v) := by
  constructor
  · intro k hk
    obtain ⟨S, hS⟩ := typeExists_snd name parent c ours typeMap
    rw [hS]
    exact lookupL_insert_isSome hk _ _
  · intro hflag k s f v hks hsf
    rcases hl : lookupL typeMap (canonicalKeyOf c name) with _ | ex
    · rcases hf2 : findParented typeMap (canonicalKeyOf c name) with _ | ⟨k2, ex⟩
      · rw [typeExists_new hl hf2] at hflag
        cases hflag
      · rw [typeExists_found hl hf2] at hflag ⊢
        by_cases h1 : conflictExisting ex ours
        · rw [typeExistsMatch_conflict (Or.inl h1)] at hflag
          cases hflag
        · by_cases h2 : conflictOurs ours ex
          · rw [typeExistsMatch_conflict (Or.inr h2)] at hflag
            cases hflag
          · rw [typeExistsMatch_merge (Bool.not_eq_true _ ▸ h1) (Bool.not_eq_true _ ▸ h2)]
            by_cases hk2 : k = k2
            · subst hk2
              have hex : lookupL typeMap k = some ex := (findParented_lookupL hf2).1
              rw [hks] at hex
              cases hex
              refine ⟨s ++ missingFields ours s, lookupL_insert_self .., ?_⟩
              rw [lookupL_append, hsf]
              simp
            · exact ⟨s, by rw [lookupL_insert_ne hk2, hks], hsf⟩
    · rw [typeExists_lookup_some hl] at hflag ⊢
      by_cases h1 : conflictExisting ex ours
      · rw [typeExistsMatch_conflict (Or.inl h1)] at hflag
        cases hflag
      · by_cases h2 : conflictOurs ours ex
        · rw [typeExistsMatch_conflict (Or.inr h2)] at hflag
          cases hflag
        · rw [typeExistsMatch_merge (Bool.not_eq_true _ ▸ h1) (Bool.not_eq_true _ ▸ h2)]
          by_cases hk2 : k = canonicalKeyOf c name
          · subst hk2
            rw [hks] at hl
            cases hl
            refine ⟨s ++ missingFields ours s, lookupL_insert_self .., ?_⟩
            rw [lookupL_append, hsf]
            simp
          · exact ⟨s, by rw [lookupL_insert_ne hk2, hks], hsf⟩

/-- Witness for C7 amended at a concrete merging call. -/
theorem typeExists_monotone_witness :
    (lookupL (typeExists "t" "p" {} [("y", { typeOf := some "float64" })]
        [("t", [("x", { typeOf := some "string" })])]).2 "t").isSome = true ∧
    ∃ s2, lookupL (typeExists "t" "p" {} [("y", { typeOf := some "float64" })]
        [("t", [("x", { typeOf := some "string" })])]).2 "t" = some s2 ∧
      lookupL s2 "x" = some { typeOf := some "string" } :=
  ⟨(typeExists_monotone "t" "p" {} [("y", { typeOf := some "float64" })]
      [("t", [("x", { typeOf := some "string" })])]).1 "t" (by decide),
   (typeExists_monotone "t" "p" {} [("y", { typeOf := some "float64" })]
      [("t", [("x", { typeOf := some "string" })])]).2 (by decide) "t"
      [("x", { typeOf := some "string" })] "x" { typeOf := some "string" }
      (by decide) (by decide)⟩

/-- C8: at the failing input — a field whose value is an array whose first
element is itself an array — `unWrapMap` succeeds and emits a fallback
descriptor (the unnamed reflected slice type, `isArray` set) instead of
surfacing the unsupported-shape error the spec requires; the claim is
right about the intent and the code silently diverges. -/
theorem unWrapMap_nested_array_fallback :
    unWrapMap {} [("f", .arr [.arr []])] "doc" [] =
      .ok ([("f", { isArray := true, typeOf := some "" })], []) := rfl

/-- C9 counterexample: on the scenario input the field `id` is classified
by the dynamic type of the decoded number — `float64` — not as an integer
type (the engine's only integer descriptor, `int64`, arises solely from
swagger input). -/
theorem user_scenario_id_not_integer :
    ((typesFromMap {} [("user.json",
        [.obj [("id", .num), ("address", .obj [("city", .str "X")])]])]).toOption.bind
      (fun ts => lookupL ts "user")).bind (fun s => lookupL s "id") =
      some { typeOf := some "float64" } ∧
    ({ typeOf := some "float64" } : MaybeType) ≠ { typeOf := some "int64" } ∧
    ({ typeOf := some "float64" } : MaybeType) ≠ { typeOf := some "int" } := by decide

/-- C9 amended: the scenario registry holds exactly the entries
`address = (city : string)` and `user = (id : float64,
address : named reference to "address")` — as the claim says except that
`id` is the decoder's `float64`, not an integer type. -/
theorem user_scenario_registry :
    typesFromMap {} [("user.json",
        [.obj [("id", .num), ("address", .obj [("city", .str "X")])]])] =
      .ok [("address", [("city", { typeOf := some "string" })]),
           ("user", [("id", { typeOf := some "float64" }),
                     ("address", { nameOftype := "address" })])] := rfl

/-- Self-absorption: a shape with self-equal descriptors and distinct
field names neither conflicts with itself nor adds anything to itself. -/
theorem self_absorbs (ours : Shape)
    (hself : ∀ kv ∈ ours, kv.2.Equals kv.2 = true)
    (hnodup : (ours.map Prod.fst).Nodup) :
    conflictExisting ours ours = false ∧ conflictOurs ours ours = false ∧
    missingFields ours ours = [] := by
  refine ⟨?_, ?_, missingFields_self ours⟩
  · rw [conflictExisting, List.any_eq_false]
    intro kv hkv
    simp [lookupL_eq_of_nodup_mem hnodup hkv, hself kv hkv]
  · rw [conflictOurs, List.any_eq_false]
    intro kv hkv
    simp [lookupL_eq_of_nodup_mem hnodup hkv, hself kv hkv]

/-- After a successful merge, the merged entry absorbs the same candidate:
no conflict in either loop and nothing missing. -/
theorem merged_absorbs {ours ex : Shape}
    (hself : ∀ kv ∈ ours, kv.2.Equals kv.2 = true)
    (hnodup : (ours.map Prod.fst).Nodup)
    (h1 : conflictExisting ex ours = false) (h2 : conflictOurs ours ex = false) :
    conflictExisting (ex ++ missingFields ours ex) ours = false ∧
    conflictOurs ours (ex ++ missingFields ours ex) = false ∧
    missingFields ours (ex ++ missingFields ours ex) = [] := by
  have hmergedSome : ∀ kv ∈ ours, lookupL (ex ++ missingFields ours ex) kv.1 =
      if (lookupL ex kv.1).isSome then lookupL ex kv.1 else some kv.2 := by
    intro kv hkv
    rw [lookupL_append]
    by_cases hce : (lookupL ex kv.1).isSome
    · simp [hce]
    · rw [if_neg hce, if_neg hce]
      exact lookupL_missing_some (Option.not_isSome_iff_eq_none.mp hce)
        (lookupL_eq_of_nodup_mem hnodup hkv)
  refine ⟨?_, ?_, ?_⟩
  · rw [conflictExisting, List.any_eq_false]
    intro kv hkv
    rcases List.mem_append.mp hkv with hkv1 | hkv1
    · rcases hlo : lookupL ours kv.1 with _ | vo
      · simp
      · simp [conflictExisting_false_forall h1 hkv1 hlo]
    · have hko : kv ∈ ours := missing_mem_sub hkv1
      simp [lookupL_eq_of_nodup_mem hnodup hko, hself kv hko]
  · rw [conflictOurs, List.any_eq_false]
    intro kv hkv
    rw [hmergedSome kv hkv]
    rcases hce : lookupL ex kv.1 with _ | ve
    · simp [hself kv hkv]
    · simp [conflictOurs_false_forall h2 hkv hce]
  · rw [missingFields, List.filter_eq_nil_iff]
    intro kv hkv
    rw [hmergedSome kv hkv]
    rcases hce : lookupL ex kv.1 with _ | ve <;> simp

/-- A merge whose widening adds nothing, applied to the entry already
stored under the key, leaves the registry untouched. -/
theorem typeExistsMatch_noop {k parent : String} {ours ex : Shape} {T : TypeMap}
    (h1 : conflictExisting ex ours = false) (h2 : conflictOurs ours ex = false)
    (h3 : missingFields ours ex = []) (hT : lookupL T k = some ex) :
    typeExistsMatch k parent ours ex T = ((k, true), T) := by
  rw [typeExistsMatch_merge h1 h2, h3, List.append_nil, insertL_lookup_eq hT]

/-- C3 counterexample: a shape holding one field with the empty descriptor
(reflected type nil, no referenced name — exactly what a JSON `null` field
value produces) is not `Equals` to itself, so the second identical call
conflict-forks: the registry gains a new entry and the returned name
changes. -/
theorem typeExists_not_idempotent :
    (typeExists "t" "p" {} [("f", {})] (typeExists "t" "p" {} [("f", {})] []).2).2 ≠
      (typeExists "t" "p" {} [("f", {})] []).2 ∧
    (typeExists "t" "p" {} [("f", {})] (typeExists "t" "p" {} [("f", {})] []).2).1.1 ≠
      (typeExists "t" "p" {} [("f", {})] []).1.1 := by decide

/-- C3 amended: for every candidate shape whose descriptors are self-equal
under `Equals` (non-nil reflected type or non-empty referenced name — every
descriptor except the all-empty one) and whose field names are distinct,
calling `typeExists` twice with the same arguments leaves the registry
exactly as after one call, and returns the same canonical name. -/
theorem typeExists_idempotent (name parent : String) (c : Config) (ours : Shape)
    (T : TypeMap)
    (hself : ∀ kv ∈ ours, kv.2.Equals kv.2 = true)
    (hnodup : (ours.map Prod.fst).Nodup) :
    (typeExists name parent c ours (typeExists name parent c ours T).2).2 =
      (typeExists name parent c ours T).2 ∧
    (typeExists name parent c ours (typeExists name parent c ours T).2).1.1 =
      (typeExists name parent c ours T).1.1 := by
  rcases hl : lookupL T (canonicalKeyOf c name) with _ | ex
  · rcases hf : findParented T (canonicalKeyOf c name) with _ | ⟨k2, ex⟩
    · -- brand-new insert; the second call merges the shape into itself
      rw [typeExists_new hl hf]
      have hsa := self_absorbs ours hself hnodup
      rw [typeExists_lookup_some (lookupL_insert_self ..),
        typeExistsMatch_noop hsa.1 hsa.2.1 hsa.2.2 (lookupL_insert_self ..)]
      exact ⟨rfl, rfl⟩
    · -- matched through the parented search
      have hlk2 : lookupL T k2 = some ex := (findParented_lookupL hf).1
      have hseg : lastSegment k2 = canonicalKeyOf c name := (findParented_lookupL hf).2
      rw [typeExists_found hl hf]
      by_cases h1 : conflictExisting ex ours
      · rw [typeExistsMatch_conflict (Or.inl h1)]
        by_cases hnn : parent ++ "." ++ k2 = canonicalKeyOf c name
        · have hins : lookupL (insertL (parent ++ "." ++ k2) ours T)
              (canonicalKeyOf c name) = some ours := by
            rw [← hnn]
            exact lookupL_insert_self ..
          rw [typeExists_lookup_some hins]
          have hsa := self_absorbs ours hself hnodup
          rw [typeExistsMatch_noop hsa.1 hsa.2.1 hsa.2.2 hins]
          exact ⟨rfl, hnn.symm⟩
        · have hlook2 : lookupL (insertL (parent ++ "." ++ k2) ours T)
              (canonicalKeyOf c name) = none := by
            rw [lookupL_insert_ne (fun hh => hnn hh.symm)]
            exact hl
          have hfp2 : findParented (insertL (parent ++ "." ++ k2) ours T)
              (canonicalKeyOf c name) = some (k2, ex) :=
            findParented_insert_other hf (hseg ▸ lastSegment_append_dot parent k2)
              (Ne.symm (parent_key_ne parent k2)) ours
          rw [typeExists_found hlook2 hfp2, typeExistsMatch_conflict (Or.inl h1),
            insertL_lookup_eq (lookupL_insert_self ..)]
          exact ⟨rfl, rfl⟩
      · by_cases h2 : conflictOurs ours ex
        · rw [typeExistsMatch_conflict (Or.inr h2)]
          by_cases hnn : parent ++ "." ++ k2 = canonicalKeyOf c name
          · have hins : lookupL (insertL (parent ++ "." ++ k2) ours T)
                (canonicalKeyOf c name) = some ours := by
              rw [← hnn]
              exact lookupL_insert_self ..
            rw [typeExists_lookup_some hins]
            have hsa := self_absorbs ours hself hnodup
            rw [typeExistsMatch_noop hsa.1 hsa.2.1 hsa.2.2 hins]
            exact ⟨rfl, hnn.symm⟩
          · have hlook2 : lookupL (insertL (parent ++ "." ++ k2) ours T)
                (canonicalKeyOf c name) = none := by
              rw [lookupL_insert_ne (fun hh => hnn hh.symm)]
              exact hl
            have hfp2 : findParented (insertL (parent ++ "." ++ k2) ours T)
                (canonicalKeyOf c name) = some (k2, ex) :=
              findParented_insert_other hf (hseg ▸ lastSegment_append_dot parent k2)
                (Ne.symm (parent_key_ne parent k2)) ours
            rw [typeExists_found hlook2 hfp2, typeExistsMatch_conflict (Or.inr h2),
              insertL_lookup_eq (lookupL_insert_self ..)]
            exact ⟨rfl, rfl⟩
        · have h1f : conflictExisting ex ours = false := Bool.not_eq_true _ ▸ h1
          have h2f : conflictOurs ours ex = false := Bool.not_eq_true _ ▸ h2
          rw [typeExistsMatch_merge h1f h2f]
          have hk2key : k2 ≠ canonicalKeyOf c name := by
            intro hh
            rw [hh, hl] at hlk2
            cases hlk2
          have hlook2 : lookupL
              (insertL k2 (ex ++ missingFields ours ex) T) (canonicalKeyOf c name) = none := by
            rw [lookupL_insert_ne (Ne.symm hk2key)]
            exact hl
          have hfp2 : findParented (insertL k2 (ex ++ missingFields ours ex) T)
              (canonicalKeyOf c name) = some (k2, ex ++ missingFields ours ex) :=
            findParented_insert_self hf _
          have hma := merged_absorbs hself hnodup h1f h2f
          rw [typeExists_found hlook2 hfp2,
            typeExistsMatch_noop hma.1 hma.2.1 hma.2.2 (lookupL_insert_self ..)]
          exact ⟨rfl, rfl⟩
  · -- matched directly under the canonical key
    rw [typeExists_lookup_some hl]
    by_cases h1 : conflictExisting ex ours
    · rw [typeExistsMatch_conflict (Or.inl h1)]
      have hlook2 : lookupL (insertL (parent ++ "." ++ canonicalKeyOf c name) ours T)
          (canonicalKeyOf c name) = some ex := by
        rw [lookupL_insert_ne (parent_key_ne parent (canonicalKeyOf c name))]
        exact hl
      rw [typeExists_lookup_some hlook2, typeExistsMatch_conflict (Or.inl h1),
        insertL_lookup_eq (lookupL_insert_self ..)]
      exact ⟨rfl, rfl⟩
    · by_cases h2 : conflictOurs ours ex
      · rw [typeExistsMatch_conflict (Or.inr h2)]
        have hlook2 : lookupL (insertL (parent ++ "." ++ canonicalKeyOf c name) ours T)
            (canonicalKeyOf c name) = some ex := by
          rw [lookupL_insert_ne (parent_key_ne parent (canonicalKeyOf c name))]
          exact hl
        rw [typeExists_lookup_some hlook2, typeExistsMatch_conflict (Or.inr h2),
          insertL_lookup_eq (lookupL_insert_self ..)]
        exact ⟨rfl, rfl⟩
      · have h1f : conflictExisting ex ours = false := Bool.not_eq_true _ ▸ h1
        have h2f : conflictOurs ours ex = false := Bool.not_eq_true _ ▸ h2
        rw [typeExistsMatch_merge h1f h2f]
        have hma := merged_absorbs hself hnodup h1f h2f
        rw [typeExists_lookup_some (lookupL_insert_self ..),
          typeExistsMatch_noop hma.1 hma.2.1 hma.2.2 (lookupL_insert_self ..)]
        exact ⟨rfl, rfl⟩

/-- Witness for C3 amended at a concrete self-equal shape. -/
theorem typeExists_idempotent_witness :
    (typeExists "t" "p" {} [("f", { typeOf := some "string" })]
        (typeExists "t" "p" {} [("f", { typeOf := some "string" })] []).2).2 =
      (typeExists "t" "p" {} [("f", { typeOf := some "string" })] []).2 ∧
    (typeExists "t" "p" {} [("f", { typeOf := some "string" })]
        (typeExists "t" "p" {} [("f", { typeOf := some "string" })] []).2).1.1 =
      (typeExists "t" "p" {} [("f", { typeOf := some "string" })] []).1.1 :=
  typeExists_idempotent "t" "p" {} [("f", { typeOf := some "string" })] []
    (by decide) (by decide)

/-- The compare-and-merge step of `typeExists` is invariant under field
iteration order of both shapes (given distinct field names). -/
theorem typeExistsMatch_congr {k parent : String} {ours1 ours2 ex1 ex2 : Shape}
    {T1 T2 : TypeMap} (hop : ours1.Perm ours2) (hnod : (ours1.map Prod.fst).Nodup)
    (hexp : ex1.Perm ex2) (hnodE : (ex1.map Prod.fst).Nodup) (hreg : RegEquiv T1 T2) :
    (typeExistsMatch k parent ours1 ex1 T1).1 = (typeExistsMatch k parent ours2 ex2 T2).1 ∧
    RegEquiv (typeExistsMatch k parent ours1 ex1 T1).2
      (typeExistsMatch k parent ours2 ex2 T2).2 := by
  have hlkO : ∀ q, lookupL ours1 q = lookupL ours2 q := lookupL_perm hop hnod
  have hlkE : ∀ q, lookupL ex1 q = lookupL ex2 q := lookupL_perm hexp hnodE
  have hc1 : conflictExisting ex1 ours1 = conflictExisting ex2 ours2 :=
    conflictExisting_congr hexp hlkO
  have hc2 : conflictOurs ours1 ex1 = conflictOurs ours2 ex2 :=
    conflictOurs_congr hop hlkE
  by_cases h1 : conflictExisting ex1 ours1
  · have h1b : conflictExisting ex2 ours2 = true := by
      rw [← hc1]
      exact h1
    rw [typeExistsMatch_conflict (Or.inl h1), typeExistsMatch_conflict (Or.inl h1b)]
    exact ⟨rfl, regEquiv_insert hreg hop _⟩
  · by_cases h2 : conflictOurs ours1 ex1
    · have h2b : conflictOurs ours2 ex2 = true := by
        rw [← hc2]
        exact h2
      rw [typeExistsMatch_conflict (Or.inr h2), typeExistsMatch_conflict (Or.inr h2b)]
      exact ⟨rfl, regEquiv_insert hreg hop _⟩
    · have h1f : conflictExisting ex1 ours1 = false := Bool.not_eq_true _ ▸ h1
      have h2f : conflictOurs ours1 ex1 = false := Bool.not_eq_true _ ▸ h2
      have h1fb : conflictExisting ex2 ours2 = false := by
        rw [← hc1]
        exact h1f
      have h2fb : conflictOurs ours2 ex2 = false := by
        rw [← hc2]
        exact h2f
      rw [typeExistsMatch_merge h1f h2f, typeExistsMatch_merge h1fb h2fb]
      exact ⟨rfl, regEquiv_insert hreg (hexp.append (missingFields_congr hop hlkE)) _⟩

/-- C5: Field-iteration-order independence: run `typeExists` on two
presentations of the same data — the candidate shape permuted, and every
registry shape permuted entrywise — and the returned name and flag are
identical and the resulting registries are again entrywise permutations of
one another: the outcome depends only on the sets of fields and their
pairwise comparisons, never on map iteration order over a shape. -/
theorem typeExists_order_independent (name parent : String) (c : Config)
    (ours1 ours2 : Shape) (T1 T2 : TypeMap)
    (hop : ours1.Perm ours2) (hnod : (ours1.map Prod.fst).Nodup)
    (hreg : RegEquiv T1 T2)
    (hshapes : ∀ kv ∈ T1, ((kv.2 : Shape).map Prod.fst).Nodup) :
    (typeExists name parent c ours1 T1).1 = (typeExists name parent c ours2 T2).1 ∧
    RegEquiv (typeExists name parent c ours1 T1).2 (typeExists name parent c ours2 T2).2 := by
  rcases regEquiv_lookup hreg (canonicalKeyOf c name) with ⟨hn1, hn2⟩ | ⟨s1, s2, hs1, hs2, hsp⟩
  · rcases regEquiv_findParented hreg (canonicalKeyOf c name) with
      ⟨hf1, hf2⟩ | ⟨k, v1, v2, hf1, hf2, hvp⟩
    · rw [typeExists_new hn1 hf1, typeExists_new hn2 hf2]
      exact ⟨rfl, regEquiv_insert hreg hop _⟩
    · rw [typeExists_found hn1 hf1, typeExists_found hn2 hf2]
      exact typeExistsMatch_congr hop hnod hvp
        (hshapes (k, v1) (lookupL_mem (findParented_lookupL hf1).1)) hreg
  · rw [typeExists_lookup_some hs1, typeExists_lookup_some hs2]
    exact typeExistsMatch_congr hop hnod hsp
      (hshapes (canonicalKeyOf c name, s1) (lookupL_mem hs1)) hreg

/-- Witness for C5 at concrete permuted shapes. -/
theorem typeExists_order_independent_witness :
    (typeExists "t" "p" {}
        [("a", { typeOf := some "string" }), ("b", { typeOf := some "float64" })]
        [("t", [("a", { typeOf := some "string" }), ("c", { typeOf := some "bool" })])]).1 =
      (typeExists "t" "p" {}
        [("b", { typeOf := some "float64" }), ("a", { typeOf := some "string" })]
        [("t", [("c", { typeOf := some "bool" }), ("a", { typeOf := some "string" })])]).1 ∧
    RegEquiv
      (typeExists "t" "p" {}
        [("a", { typeOf := some "string" }), ("b", { typeOf := some "float64" })]
        [("t", [("a", { typeOf := some "string" }), ("c", { typeOf := some "bool" })])]).2
      (typeExists "t" "p" {}
        [("b", { typeOf := some "float64" }), ("a", { typeOf := some "string" })]
        [("t", [("c", { typeOf := some "bool" }), ("a", { typeOf := some "string" })])]).2 :=
  typeExists_order_independent "t" "p" {}
    [("a", { typeOf := some "string" }), ("b", { typeOf := some "float64" })]
    [("b", { typeOf := some "float64" }), ("a", { typeOf := some "string" })]
    [("t", [("a", { typeOf := some "string" }), ("c", { typeOf := some "bool" })])]
    [("t", [("c", { typeOf := some "bool" }), ("a", { typeOf := some "string" })])]
    (by decide) (by decide)
    (List.Forall₂.cons ⟨rfl, by decide⟩ List.Forall₂.nil) (by decide)

/-! ### Closed-world invariant machinery -/

theorem typeExists_keys_mono (name parent : String) (c : Config) (ours : Shape)
    (typeMap : TypeMap) :
    ∀ k, (lookupL typeMap k).isSome = true →
      (lookupL (typeExists name parent c ours typeMap).2 k).isSome = true := by
  intro k hk
  obtain ⟨S, hS⟩ := typeExists_snd name parent c ours typeMap
  rw [hS]
  exact lookupL_insert_isSome hk _ _

theorem typeExists_ret_key (name parent : String) (c : Config) (ours : Shape)
    (typeMap : TypeMap) :
    (lookupL (typeExists name parent c ours typeMap).2
      (typeExists name parent c ours typeMap).1.1).isSome = true := by
  obtain ⟨S, hS⟩ := typeExists_snd name parent c ours typeMap
  rw [hS, lookupL_insert_self]
  rfl

theorem DescOk_mono {tm tm2 : TypeMap}
    (hmono : ∀ k, (lookupL tm k).isSome = true → (lookupL tm2 k).isSome = true)
    {v : MaybeType} (h : DescOk tm v) : DescOk tm2 v :=
  ⟨fun h1 h2 => hmono _ (h.1 h1 h2), fun n hn => hmono _ (h.2 n hn)⟩

theorem ShapeRefsOk_mono {tm tm2 : TypeMap}
    (hmono : ∀ k, (lookupL tm k).isSome = true → (lookupL tm2 k).isSome = true)
    {s : Shape} (h : ShapeRefsOk tm s) : ShapeRefsOk tm2 s :=
  fun f v hv => DescOk_mono hmono (h f v hv)

theorem typeExists_inserted_ok {name parent : String} {c : Config} {ours : Shape}
    {typeMap : TypeMap} (hrc : RefsClosed typeMap) (hours : ShapeRefsOk typeMap ours) :
    ∃ S, (typeExists name parent c ours typeMap).2 =
      insertL (typeExists name parent c ours typeMap).1.1 S typeMap ∧
      ShapeRefsOk typeMap S := by
  rcases hl : lookupL typeMap (canonicalKeyOf c name) with _ | ex
  · rcases hf : findParented typeMap (canonicalKeyOf c name) with _ | ⟨k2, ex⟩
    · rw [typeExists_new hl hf]
      exact ⟨ours, rfl, hours⟩
    · have hex : ShapeRefsOk typeMap ex := hrc k2 ex (findParented_lookupL hf).1
      rw [typeExists_found hl hf]
      by_cases h1 : conflictExisting ex ours
      · rw [typeExistsMatch_conflict (Or.inl h1)]
        exact ⟨ours, rfl, hours⟩
      · by_cases h2 : conflictOurs ours ex
        · rw [typeExistsMatch_conflict (Or.inr h2)]
          exact ⟨ours, rfl, hours⟩
        · rw [typeExistsMatch_merge (Bool.not_eq_true _ ▸ h1) (Bool.not_eq_true _ ▸ h2)]
          refine ⟨ex ++ missingFields ours ex, rfl, ?_⟩
          intro f v hv
          rw [lookupL_append] at hv
          by_cases hce : (lookupL ex f).isSome
          · rw [if_pos hce] at hv
            exact hex f v hv
          · rw [if_neg hce] at hv
            exact hours f v (lookupL_missing_to hv).1
  · have hex : ShapeRefsOk typeMap ex := hrc _ ex hl
    rw [typeExists_lookup_some hl]
    by_cases h1 : conflictExisting ex ours
    · rw [typeExistsMatch_conflict (Or.inl h1)]
      exact ⟨ours, rfl, hours⟩
    · by_cases h2 : conflictOurs ours ex
      · rw [typeExistsMatch_conflict (Or.inr h2)]
        exact ⟨ours, rfl, hours⟩
      · rw [typeExistsMatch_merge (Bool.not_eq_true _ ▸ h1) (Bool.not_eq_true _ ▸ h2)]
        refine ⟨ex ++ missingFields ours ex, rfl, ?_⟩
        intro f v hv
        rw [lookupL_append] at hv
        by_cases hce : (lookupL ex f).isSome
        · rw [if_pos hce] at hv
          exact hex f v hv
        · rw [if_neg hce] at hv
          exact hours f v (lookupL_missing_to hv).1

theorem typeExists_preserves_closed {name parent : String} {c : Config} {ours : Shape}
    {typeMap : TypeMap} (hrc : RefsClosed typeMap) (hours : ShapeRefsOk typeMap ours) :
    RefsClosed (typeExists name parent c ours typeMap).2 := by
  obtain ⟨S, hS, hSok⟩ := typeExists_inserted_ok hrc hours
  have hmono := typeExists_keys_mono name parent c ours typeMap
  intro k s hks
  rw [hS] at hks
  rcases lookupL_insert_cases hks with ⟨hkk, hss⟩ | hks2
  · subst hss
    exact ShapeRefsOk_mono hmono hSok
  · exact ShapeRefsOk_mono hmono (hrc k s hks2)

mutual

theorem unWrapMap_ok (c : Config) (m : List (String × JValue)) (name : String)
    (typeMap : TypeMap) (s : Shape) (tm2 : TypeMap)
    (hrc : RefsClosed typeMap) (h : unWrapMap c m name typeMap = .ok (s, tm2)) :
    RefsClosed tm2 ∧ ShapeRefsOk tm2 s ∧
      (∀ k, (lookupL typeMap k).isSome = true → (lookupL tm2 k).isSome = true) := by
  match m with
  | [] =>
    simp only [unWrapMap, Except.ok.injEq, Prod.mk.injEq] at h
    obtain ⟨h1, h2⟩ := h
    subst h1
    subst h2
    refine ⟨hrc, ?_, fun k hk => hk⟩
    intro f v hv
    simp [lookupL] at hv
  | (fn, f) :: rest =>
    simp only [unWrapMap] at h
    rcases hf : unwrapField c name fn f typeMap with e | ⟨it, tm1⟩
    · simp only [hf] at h
      cases h
    · simp only [hf] at h
      rcases hr : unWrapMap c rest name tm1 with e | ⟨s1, tmr⟩
      · simp only [hr] at h
        cases h
      · simp only [hr, Except.ok.injEq, Prod.mk.injEq] at h
        obtain ⟨h1, h2⟩ := h
        subst h1
        subst h2
        obtain ⟨hrc1, hit, hmono1⟩ := unwrapField_ok c name fn f typeMap it tm1 hrc hf
        obtain ⟨hrc2, hs1, hmono2⟩ := unWrapMap_ok c rest name tm1 s1 tmr hrc1 hr
        refine ⟨hrc2, ?_, fun k hk => hmono2 k (hmono1 k hk)⟩
        intro g v hv
        by_cases hg : fn = g
        · subst hg
          simp only [lookupL, if_pos rfl] at hv
          cases hv
          exact DescOk_mono hmono2 hit
        · simp only [lookupL, if_neg hg] at hv
          exact hs1 g v hv

theorem unwrapField_ok (c : Config) (name fn : String) (f : JValue)
    (typeMap : TypeMap) (it : MaybeType) (tm2 : TypeMap)
    (hrc : RefsClosed typeMap) (h : unwrapField c name fn f typeMap = .ok (it, tm2)) :
    RefsClosed tm2 ∧ DescOk tm2 it ∧
      (∀ k, (lookupL typeMap k).isSome = true → (lookupL tm2 k).isSome = true) := by
  match f with
  | .obj inner =>
    simp only [unwrapField] at h
    rcases hu : unWrapMap c inner fn typeMap with e | ⟨uit, tm1⟩
    · simp only [hu] at h
      cases h
    · simp only [hu, Except.ok.injEq, Prod.mk.injEq] at h
      obtain ⟨h1, h2⟩ := h
      subst h1
      subst h2
      obtain ⟨hrc1, huit, hmono1⟩ := unWrapMap_ok c inner fn typeMap uit tm1 hrc hu
      refine ⟨typeExists_preserves_closed hrc1 huit, ?_,
        fun k hk => typeExists_keys_mono fn name c uit tm1 k (hmono1 k hk)⟩
      exact ⟨fun _ _ => typeExists_ret_key fn name c uit tm1, fun n hn => by cases hn⟩
  | .arr [] =>
    simp only [unwrapField, Except.ok.injEq, Prod.mk.injEq] at h
    obtain ⟨h1, h2⟩ := h
    subst h1
    subst h2
    exact ⟨hrc, ⟨fun _ h2 => absurd rfl h2, fun n hn => by cases hn⟩, fun k hk => hk⟩
  | .arr (first :: restEl) =>
    match first with
    | .obj inner =>
      simp only [unwrapField] at h
      rcases hu : unWrapMap c inner fn typeMap with e | ⟨uit, tm1⟩
      · simp only [hu] at h
        cases h
      · simp only [hu, Except.ok.injEq, Prod.mk.injEq] at h
        obtain ⟨h1, h2⟩ := h
        subst h1
        subst h2
        obtain ⟨hrc1, huit, hmono1⟩ := unWrapMap_ok c inner fn typeMap uit tm1 hrc hu
        refine ⟨typeExists_preserves_closed hrc1 huit, ?_,
          fun k hk => typeExists_keys_mono fn name c uit tm1 k (hmono1 k hk)⟩
        exact ⟨fun _ _ => typeExists_ret_key fn name c uit tm1, fun n hn => by cases hn⟩
    | .str sv =>
      simp only [unwrapField, Except.ok.injEq, Prod.mk.injEq] at h
      obtain ⟨h1, h2⟩ := h
      subst h1
      subst h2
      exact ⟨hrc, ⟨fun h1 _ => absurd rfl h1, fun n hn => by cases hn⟩, fun k hk => hk⟩
    | .num =>
      simp only [unwrapField, Except.ok.injEq, Prod.mk.injEq] at h
      obtain ⟨h1, h2⟩ := h
      subst h1
      subst h2
      exact ⟨hrc, ⟨fun h1 _ => absurd rfl h1, fun n hn => by cases hn⟩, fun k hk => hk⟩
    | .boolean bv =>
      simp only [unwrapField, Except.ok.injEq, Prod.mk.injEq] at h
      obtain ⟨h1, h2⟩ := h
      subst h1
      subst h2
      exact ⟨hrc, ⟨fun h1 _ => absurd rfl h1, fun n hn => by cases hn⟩, fun k hk => hk⟩
    | .null =>
      simp only [unwrapField, Except.ok.injEq, Prod.mk.injEq] at h
      obtain ⟨h1, h2⟩ := h
      subst h1
      subst h2
      exact ⟨hrc, ⟨fun h1 _ => absurd rfl h1, fun n hn => by cases hn⟩, fun k hk => hk⟩
    | .arr innerEl =>
      simp only [unwrapField, Except.ok.injEq, Prod.mk.injEq] at h
      obtain ⟨h1, h2⟩ := h
      subst h1
      subst h2
      exact ⟨hrc, ⟨fun h1 _ => absurd rfl h1, fun n hn => by cases hn⟩, fun k hk => hk⟩
  | .str sv =>
    simp only [unwrapField, Except.ok.injEq, Prod.mk.injEq] at h
    obtain ⟨h1, h2⟩ := h
    subst h1
    subst h2
    exact ⟨hrc, ⟨fun h1 _ => absurd rfl h1, fun n hn => by cases hn⟩, fun k hk => hk⟩
  | .num =>
    simp only [unwrapField, Except.ok.injEq, Prod.mk.injEq] at h
    obtain ⟨h1, h2⟩ := h
    subst h1
    subst h2
    exact ⟨hrc, ⟨fun h1 _ => absurd rfl h1, fun n hn => by cases hn⟩, fun k hk => hk⟩
  | .boolean bv =>
    simp only [unwrapField, Except.ok.injEq, Prod.mk.injEq] at h
    obtain ⟨h1, h2⟩ := h
    subst h1
    subst h2
    exact ⟨hrc, ⟨fun h1 _ => absurd rfl h1, fun n hn => by cases hn⟩, fun k hk => hk⟩
  | .null =>
    simp only [unwrapField, Except.ok.injEq, Prod.mk.injEq] at h
    obtain ⟨h1, h2⟩ := h
    subst h1
    subst h2
    exact ⟨hrc, ⟨fun h1 _ => absurd rfl h1, fun n hn => by cases hn⟩, fun k hk => hk⟩

end

theorem processDocs_closed (c : Config) (tn : String) (docs : List JValue)
    (tm tm2 : TypeMap) (hrc : RefsClosed tm)
    (h : processDocs c tn docs tm = .ok tm2) : RefsClosed tm2 := by
  induction docs generalizing tm with
  | nil =>
    simp only [processDocs, Except.ok.injEq] at h
    subst h
    exact hrc
  | cons tf rest ih =>
    match tf with
    | .obj fields =>
      simp only [processDocs] at h
      rcases hu : unWrapMap c fields (filepathBase tn) tm with e | ⟨t, tm1⟩
      · simp only [hu] at h
        cases h
      · simp only [hu] at h
        obtain ⟨hrc1, ht, _⟩ := unWrapMap_ok c fields (filepathBase tn) tm t tm1 hrc hu
        exact ih _ (typeExists_preserves_closed hrc1 ht) h
    | .str sv =>
      simp only [processDocs] at h
      exact ih _ hrc h
    | .num =>
      simp only [processDocs] at h
      exact ih _ hrc h
    | .boolean bv =>
      simp only [processDocs] at h
      exact ih _ hrc h
    | .null =>
      simp only [processDocs] at h
      exact ih _ hrc h
    | .arr el =>
      simp only [processDocs] at h
      exact ih _ hrc h

theorem typesFromMapAux_closed (c : Config) (m : List (String × List JValue))
    (tm tm2 : TypeMap) (hrc : RefsClosed tm)
    (h : typesFromMapAux c m tm = .ok tm2) : RefsClosed tm2 := by
  induction m generalizing tm with
  | nil =>
    simp only [typesFromMapAux, Except.ok.injEq] at h
    subst h
    exact hrc
  | cons e rest ih =>
    obtain ⟨tn, docs⟩ := e
    simp only [typesFromMapAux] at h
    rcases hp : processDocs c tn docs tm with err | tm1
    · simp only [hp] at h
      cases h
    · simp only [hp] at h
      exact ih _ (processDocs_closed c tn docs tm tm1 hrc hp) h

/-- C4 counterexample: a swagger component map whose single object
component `a` is an `allOf` of a `$ref` to the undeclared component `b`
completes the inference pass with `b` as a `multiType` member in the final
registry while `b` is not a registry key — and the resulting registry
violates `RefsClosed`. -/
theorem schemaIntoMap_dangling_ref :
    (schemaIntoMap
        { schemas :=
            [("a",
              { type := "object", allOf := [{ ref := "#/components/schemas/b" }] })] }).1 =
      [("a", [("", { multiType := ["b"] })])] ∧
    "b" ∈ ({ multiType := ["b"] } : MaybeType).multiType ∧
    lookupL ([("a", [("", { multiType := ["b"] })])] : TypeMap) "b" = none ∧
    ¬ RefsClosed [("a", [("", { multiType := ["b"] })])] := by
  refine ⟨by decide, by decide, by decide, ?_⟩
  intro hrc
  have h1 : lookupL ([("a", [("", { multiType := ["b"] })])] : TypeMap) "a" =
      some [("", { multiType := ["b"] })] := by decide
  have h2 : lookupL ([("", ({ multiType := ["b"] } : MaybeType))] : Shape) "" =
      some { multiType := ["b"] } := by decide
  have h3 := (hrc _ _ h1 _ _ h2).2 "b" (by decide)
  have h4 : lookupL ([("a", [("", { multiType := ["b"] })])] : TypeMap) "b" = none := by
    decide
  rw [h4] at h3
  cases h3

/-- C4 amended: the JSON-sample inference pass does establish the
closed-world invariant: in the final registry every `nameOftype` that is a
real named reference (not empty, not the `interface{}` fallback) and every
`multiType` member resolves to a registry key.  The swagger pass does not
establish it (see the counterexample): a `$ref` or `oneOf`/`anyOf`/`allOf`
member naming an undeclared or non-object component is stored unresolved. -/
theorem typesFromMap_refs_closed (c : Config) (m : List (String × List JValue))
    (ts : TypeMap) (h : typesFromMap c m = .ok ts) : RefsClosed ts := by
  refine typesFromMapAux_closed c m [] ts ?_ h
  intro k s hks
  cases hks

/-- Witness for C4 amended: the invariant, instantiated on the registry the
user.json scenario produces. -/
theorem typesFromMap_refs_closed_witness :
    RefsClosed [("address", [("city", { typeOf := some "string" })]),
                ("user", [("id", { typeOf := some "float64" }),
                          ("address", { nameOftype := "address" })])] :=
  typesFromMap_refs_closed {} [("user.json",
      [.obj [("id", .num), ("address", .obj [("city", .str "X")])]])]
    [("address", [("city", { typeOf := some "string" })]),
     ("user", [("id", { typeOf := some "float64" }),
               ("address", { nameOftype := "address" })])] rfl

/-- C10: descriptor equivalence ignores `isArray`: descriptors with the
same reflected type name, or reference descriptors (at least one side with
a nil reflected type) with the same non-empty referenced name, are judged
equal whatever their `isArray` flags; consequently an array-of-x sample
and a bare-x sample merge without a fork and the registry keeps the
first-registered descriptor, `isArray` flag included. -/
theorem equals_ignores_isArray :
    (∀ a b : MaybeType, ∀ n : String,
      a.typeOf = some n → b.typeOf = some n → a.Equals b = true) ∧
    (∀ a b : MaybeType, (a.typeOf = none ∨ b.typeOf = none) →
      a.nameOftype ≠ "" → a.nameOftype = b.nameOftype → a.Equals b = true) ∧
    (typeExists "t" "p" {} [("f", { nameOftype := "x" })]
        [("t", [("f", { isArray := true, nameOftype := "x" })])] =
      (("t", true), [("t", [("f", { isArray := true, nameOftype := "x" })])])) := by
  refine ⟨?_, ?_, by decide⟩
  · intro a b n h1 h2
    simp [MaybeType.Equals, h1, h2]
  · intro a b h hne hname
    rcases h with h | h
    · rcases hb : b.typeOf with _ | y <;>
        simp [MaybeType.Equals, h, hb, hne, hname ▸ hne, hname]
    · rcases ha : a.typeOf with _ | x <;>
        simp [MaybeType.Equals, h, ha, hne, hname ▸ hne, hname]

/-- Witness for C10: an array-of-string descriptor equals a bare string
descriptor, and an array reference equals a bare reference. -/
theorem equals_ignores_isArray_witness :
    ({ isArray := true, typeOf := some "string" } : MaybeType).Equals
      { typeOf := some "string" } = true ∧
    ({ isArray := true, nameOftype := "x" } : MaybeType).Equals
      { nameOftype := "x" } = true :=
  ⟨equals_ignores_isArray.1 _ _ "string" rfl rfl,
   equals_ignores_isArray.2.1 _ _ (Or.inl rfl) (by decide) rfl⟩

end LAC
